import Mathlib

/-!
Verification of the JLF-tasks repository specification.

The repository ships three small tools: a regex-based text-to-JSON
normalizer (the "Classifier" of spec §4.1), a chat UI with on-disk
history (`app.py`), and a spreadsheet-to-LLM batch extractor
(`lead_parser.py`).  The classifier's implementation file is not part
of the source tree we were given (only `app.py` and `lead_parser.py`
are), so the classifier is modelled from the spec's §4.1 description;
`extract_lead_data`, `load_all_chats` and the batch loop are embedded
from the Python source.

Strings are embedded as `List Char`; Python exceptions are embedded as
`Except String`.
-/

set_option maxRecDepth 10000

namespace JLF

/-- Modelled from the spec: the whitespace character class used by the
classifier's cleaning and stripping steps ("whitespace (including
tabs/newlines)"); the ASCII whitespace characters. -/
def isWs (c : Char) : Bool :=
  c == ' ' || c == '\t' || c == '\n' || c == '\r' || c == '\x0b' || c == '\x0c'

/-- Modelled from the spec: split a cleaned-or-raw character list into its
maximal whitespace-free runs ("words"), used to collapse internal
whitespace.  `acc` holds the current word in reverse. -/
def wordsAux : List Char → List Char → List (List Char)
  | [], acc => if acc.isEmpty then [] else [acc.reverse]
  | c :: cs, acc =>
    if isWs c then
      if acc.isEmpty then wordsAux cs [] else acc.reverse :: wordsAux cs []
    else
      wordsAux cs (c :: acc)

/-- Modelled from the spec: the list of maximal whitespace-free runs of a line. -/
def wordsOf (l : List Char) : List (List Char) := wordsAux l []

/-- Modelled from the spec: rejoin words with a single ASCII space between
consecutive words. -/
def joinWords : List (List Char) → List Char
  | [] => []
  | [w] => w
  | w :: ws => w ++ ' ' :: joinWords ws

/-- Modelled from the spec: string cleaning — strip leading/trailing
whitespace, then collapse every internal whitespace run to a single ASCII
space (spec §4.1, "String cleaning"). -/
def clean (l : List Char) : List Char := joinWords (wordsOf l)

/-- Modelled from the spec: split the input on line-terminator boundaries
(the classifier's line pass; missing classifier source file). -/
def splitLines : List Char → List (List Char)
  | [] => [[]]
  | c :: cs =>
    if c = '\n' then [] :: splitLines cs
    else
      match splitLines cs with
      | [] => [[c]]
      | l :: ls => (c :: l) :: ls

/-- Modelled from the spec: strip trailing whitespace from a line. -/
def rstrip (l : List Char) : List Char := (l.reverse.dropWhile isWs).reverse

/-- Modelled from the spec: strip leading and trailing whitespace. -/
def stripWs (l : List Char) : List Char := (l.dropWhile isWs).reverse.dropWhile isWs |>.reverse

/-- Modelled from the spec: input normalization of the missing classifier
source — split into lines, strip trailing whitespace on each line,
discard lines that are empty or whitespace-only. -/
def linesOf (text : List Char) : List (List Char) :=
  ((splitLines text).map rstrip).filter (fun l => !l.isEmpty)

/-- Modelled from the spec: first character class of the identifier pattern
`[A-Za-z_][A-Za-z0-9_]*`. -/
def isIdentStart (c : Char) : Bool := c.isAlpha || c == '_'

/-- Modelled from the spec: continuation character class of the identifier
pattern. -/
def isIdentRest (c : Char) : Bool := c.isAlphanum || c == '_'

/-- Modelled from the spec: the identifier test `^[A-Za-z_][A-Za-z0-9_]*$`
applied to cleaned keys of candidate key-value lines. -/
def isIdent : List Char → Bool
  | [] => false
  | c :: cs => isIdentStart c && cs.all isIdentRest

/-- Modelled from the spec: split a line at the first occurrence of the
delimiter `d`, returning the parts before and after it. -/
def splitFirst (d : Char) : List Char → Option (List Char × List Char)
  | [] => none
  | c :: cs =>
    if c = d then some ([], cs)
    else (splitFirst d cs).map (fun p => (c :: p.1, p.2))

/-- Modelled from the spec: one key-value attempt of the missing classifier —
split at the first occurrence of `d`, clean both sides, accept only when
the cleaned key passes the identifier test. -/
def tryDelim (d : Char) (line : List Char) : Option (List Char × List Char) :=
  match splitFirst d line with
  | none => none
  | some (a, b) =>
    if isIdent (clean a) then some (clean a, clean b) else none

/-- Modelled from the spec: rule 1 of the missing classifier's per-line
classification — the colon split is tried first, then the equals split on
the same original line. -/
def kvOf (line : List Char) : Option (List Char × List Char) :=
  match tryDelim ':' line with
  | some p => some p
  | none => tryDelim '=' line

/-- Modelled from the spec: rule 2 of the missing classifier — after
stripping, a bullet marker (`-`, `*`, `•`) or one-or-more digits followed
by `.` or `)`, then at least one whitespace character; the remainder is
cleaned. -/
def listItemOf (line : List Char) : Option (List Char) :=
  match stripWs line with
  | [] => none
  | c :: rest =>
    if c = '-' || c = '*' || c = '•' then
      match rest with
      | r :: _ => if isWs r then some (clean rest) else none
      | [] => none
    else
      let s := c :: rest
      let ds := s.takeWhile Char.isDigit
      let afterDs := s.dropWhile Char.isDigit
      if ds.isEmpty then none
      else
        match afterDs with
        | p :: r2 =>
          if p = '.' || p = ')' then
            match r2 with
            | w :: _ => if isWs w then some (clean r2) else none
            | [] => none
          else none
        | [] => none

/-- Modelled from the spec: the three per-line classes of the missing
classifier (key-value, list item, freeform). -/
inductive LineClass where
  | kv (k v : List Char)
  | item (s : List Char)
  | other (s : List Char)
deriving DecidableEq, Repr

/-- Modelled from the spec: per-line classification in strict priority order
(key-value, then list item, then freeform fallback). -/
def classifyLine (line : List Char) : LineClass :=
  match kvOf line with
  | some (k, v) => .kv k v
  | none =>
    match listItemOf line with
    | some s => .item s
    | none => .other (clean line)

/-- Modelled from the spec: the accumulators of the missing classifier's
single pass — FieldMap, ListItems, OtherLines. -/
structure PassState where
  fm : List (List Char × List Char)
  li : List (List Char)
  ol : List (List Char)
deriving DecidableEq, Repr

/-- Modelled from the spec: FieldMap insertion — keys unique, a later
duplicate key overwrites the earlier value in place. -/
def updateField : List (List Char × List Char) → List Char → List Char → List (List Char × List Char)
  | [], k, v => [(k, v)]
  | (k', v') :: rest, k, v =>
    if k' = k then (k, v) :: rest else (k', v') :: updateField rest k v

/-- Modelled from the spec: FieldMap lookup. -/
def lookupField (k : List Char) : List (List Char × List Char) → Option (List Char)
  | [] => none
  | (k', v) :: rest => if k' = k then some v else lookupField k rest

/-- Modelled from the spec: processing of one line of the missing
classifier's pass. -/
def stepLine (st : PassState) (line : List Char) : PassState :=
  match classifyLine line with
  | .kv k v => { st with fm := updateField st.fm k v }
  | .item s => { st with li := st.li ++ [s] }
  | .other s => { st with ol := st.ol ++ [s] }

/-- Modelled from the spec: the full line pass of the missing classifier. -/
def passText (text : List Char) : PassState :=
  (linesOf text).foldl stepLine ⟨[], [], []⟩

/-- Modelled from the spec: the classifier's Result record, a JSON object
with the optional top-level keys `fields`, `list`, `text`, `lines`. -/
structure Result where
  fields : Option (List (List Char × List Char))
  list : Option (List (List Char))
  text : Option (List Char)
  lines : Option (List (List Char))
deriving DecidableEq, Repr

/-- Modelled from the spec: result assembly of the missing classifier
(§4.1, priority order, first matching rule wins). -/
def assemble (st : PassState) : Result :=
  if st.fm ≠ [] ∧ st.li ≠ [] then ⟨some st.fm, some st.li, none, none⟩
  else if st.fm ≠ [] then ⟨some st.fm, none, none, none⟩
  else if st.li ≠ [] then ⟨none, some st.li, none, none⟩
  else
    match st.ol with
    | [x] => ⟨none, none, some x, none⟩
    | ol => ⟨none, none, none, some ol⟩

/-- Modelled from the spec: the missing classifier's entry point
`classify(text: string) -> Result` — empty or whitespace-only input
returns `{ "text": "" }`, everything else runs the line pass and the
assembly rules. -/
def classify (text : String) : Result :=
  if text.data.all isWs then ⟨none, none, some [], none⟩
  else assemble (passText text.data)

/-- The list of top-level keys present in a Result, in the fixed order
fields, list, text, lines. -/
def Result.keyset (r : Result) : List String :=
  (if r.fields.isSome then ["fields"] else []) ++
  (if r.list.isSome then ["list"] else []) ++
  (if r.text.isSome then ["text"] else []) ++
  (if r.lines.isSome then ["lines"] else [])

/-- A Result is well-formed when exactly one of the five shapes of §4.1 is
populated: fields only, fields+list, list only, text, or lines. -/
def Result.wellFormed : Result → Bool
  | ⟨some _, none, none, none⟩ => true
  | ⟨some _, some _, none, none⟩ => true
  | ⟨none, some _, none, none⟩ => true
  | ⟨none, none, some _, none⟩ => true
  | ⟨none, none, none, some _⟩ => true
  | _ => false

/-- A minimal JSON value universe for the parts of `lead_parser.py` and
`app.py` that move decoded JSON around. -/
inductive JValue where
  | null
  | bool (b : Bool)
  | num (n : Int)
  | str (s : String)
  | arr (xs : List JValue)
  | obj (fields : List (String × JValue))

/-- `extract_lead_data` from `src/lead_parser.py` (lines 18-42): the chat
completion call and the `json.loads` of its content are wrapped in one
try/except; any exception `e` yields `{"error": str(e)}`.  The HTTP call's
outcome is the parameter `call` (`Except.ok content` or an exception), and
`json.loads` is the parameter `jloads`. -/
def extract_lead_data (call : Except String String)
    (jloads : String → Except String JValue) : JValue :=
  match call with
  | .error e => .obj [("error", .str e)]
  | .ok content =>
    match jloads content with
    | .error e => .obj [("error", .str e)]
    | .ok v => v

/-- `load_all_chats` from `src/app.py` (lines 19-24): if
`chat_history.json` exists, return `json.load` of its contents (whose
possible exception propagates); otherwise return `{}`.  The filesystem is
the parameter `file` (`some contents` when the file exists). -/
def load_all_chats (file : Option String)
    (jload : String → Except String JValue) : Except String JValue :=
  match file with
  | some contents => jload contents
  | none => .ok (.obj [])

/-- The batch-extraction loop of `src/lead_parser.py` (lines 80-96):
start from an empty `extracted_leads`, iterate the rows of the `raw_data`
column in order, and append one `extract_lead_data` result per row.  The
per-row HTTP outcome is `llm` applied to the row's raw text. -/
def extractedLeads (llm : String → Except String String)
    (jloads : String → Except String JValue) (rows : List String) : List JValue :=
  rows.foldl (fun acc raw => acc ++ [extract_lead_data (llm raw) jloads]) []

/-- The value of the last key-value pair with key `k` in a list of
key-value pairs, if any — the reference description of "last occurrence
wins" against which FieldMap is checked. -/
def lastValue (k : List Char) : List (List Char × List Char) → Option (List Char)
  | [] => none
  | (k', v) :: rest =>
    match lastValue k rest with
    | some w => some w
    | none => if k' = k then some v else none

/-! ### Lemmas about string cleaning -/

theorem wordsAux_nil (acc : List Char) :
    wordsAux [] acc = if acc.isEmpty then [] else [acc.reverse] := rfl

theorem wordsAux_cons (c : Char) (cs acc : List Char) :
    wordsAux (c :: cs) acc =
      if isWs c then
        (if acc.isEmpty then wordsAux cs [] else acc.reverse :: wordsAux cs [])
      else wordsAux cs (c :: acc) := rfl

theorem wordsAux_cons_ws {c : Char} (cs acc : List Char) (hc : isWs c = true) :
    wordsAux (c :: cs) acc =
      if acc.isEmpty then wordsAux cs [] else acc.reverse :: wordsAux cs [] := by
  rw [wordsAux_cons, if_pos hc]

theorem wordsAux_cons_not_ws {c : Char} (cs acc : List Char) (hc : isWs c = false) :
    wordsAux (c :: cs) acc = wordsAux cs (c :: acc) := by
  rw [wordsAux_cons, if_neg (by simp [hc])]

theorem wordsAux_good : ∀ (l acc : List Char), (∀ c ∈ acc, isWs c = false) →
    ∀ w ∈ wordsAux l acc, w ≠ [] ∧ ∀ c ∈ w, isWs c = false := by
  intro l
  induction l with
  | nil =>
    intro acc hacc w hw
    rw [wordsAux_nil] at hw
    by_cases he : acc.isEmpty
    · rw [if_pos he] at hw
      simp at hw
    · rw [if_neg he] at hw
      have hne : acc ≠ [] := fun e => he (by simp [e])
      simp only [List.mem_singleton] at hw
      subst hw
      exact ⟨by simpa using hne, fun x hx => hacc x (by simpa using hx)⟩
  | cons c cs ih =>
    intro acc hacc w hw
    by_cases hc : isWs c
    · rw [wordsAux_cons_ws cs acc hc] at hw
      by_cases he : acc.isEmpty
      · rw [if_pos he] at hw
        exact ih [] (by simp) w hw
      · rw [if_neg he] at hw
        have hne : acc ≠ [] := fun e => he (by simp [e])
        rcases List.mem_cons.mp hw with rfl | h1
        · exact ⟨by simpa using hne, fun x hx => hacc x (by simpa using hx)⟩
        · exact ih [] (by simp) w h1
    · have hc' : isWs c = false := by simpa using hc
      rw [wordsAux_cons_not_ws cs acc hc'] at hw
      refine ih (c :: acc) ?_ w hw
      intro x hx
      rcases List.mem_cons.mp hx with rfl | h1
      · exact hc'
      · exact hacc x h1

theorem wordsAux_word_append : ∀ (w l acc : List Char), (∀ c ∈ w, isWs c = false) →
    wordsAux (w ++ l) acc = wordsAux l (w.reverse ++ acc) := by
  intro w
  induction w with
  | nil => intro l acc _; simp
  | cons c w' ih =>
    intro l acc hw
    rw [List.cons_append, wordsAux_cons_not_ws _ _ (hw c (by simp)),
      ih l (c :: acc) (fun x hx => hw x (by simp [hx]))]
    congr 1
    simp

theorem wordsOf_joinWords : ∀ (ws : List (List Char)),
    (∀ w ∈ ws, w ≠ [] ∧ ∀ c ∈ w, isWs c = false) →
    wordsOf (joinWords ws) = ws := by
  intro ws
  induction ws with
  | nil => intro _; rfl
  | cons w tl ih =>
    intro h
    obtain ⟨hne, hwchars⟩ := h w (by simp)
    have hrev : ¬(w.reverse.isEmpty = true) := by
      intro e
      exact hne (by simpa using e)
    cases tl with
    | nil =>
      have h1 : joinWords [w] = w := rfl
      show wordsOf (joinWords [w]) = [w]
      rw [h1]
      unfold wordsOf
      have h2 := wordsAux_word_append w [] [] hwchars
      rw [List.append_nil] at h2
      rw [h2, List.append_nil, wordsAux_nil, if_neg hrev]
      simp
    | cons w2 tl2 =>
      have h1 : joinWords (w :: w2 :: tl2) = w ++ ' ' :: joinWords (w2 :: tl2) := rfl
      show wordsOf (joinWords (w :: w2 :: tl2)) = w :: w2 :: tl2
      rw [h1]
      unfold wordsOf
      rw [wordsAux_word_append w _ [] hwchars, List.append_nil,
        wordsAux_cons_ws _ _ (by decide), if_neg hrev, List.reverse_reverse]
      have h3 := ih (fun x hx => h x (by simp [hx]))
      unfold wordsOf at h3
      rw [h3]

theorem clean_clean (l : List Char) : clean (clean l) = clean l := by
  unfold clean
  rw [show wordsOf (joinWords (wordsOf l)) = wordsOf l from
    wordsOf_joinWords (wordsOf l) (wordsAux_good l [] (by simp))]

/-! ### Lemmas about blank input -/

theorem dropWhile_of_all {p : Char → Bool} {l : List Char}
    (h : ∀ c ∈ l, p c = true) : l.dropWhile p = [] := by
  induction l with
  | nil => rfl
  | cons c cs ih =>
    rw [List.dropWhile_cons, if_pos (h c (by simp))]
    exact ih (fun x hx => h x (by simp [hx]))

theorem rstrip_of_ws {l : List Char} (h : ∀ c ∈ l, isWs c = true) :
    rstrip l = [] := by
  unfold rstrip
  rw [dropWhile_of_all (fun c hc => h c (by simpa using hc))]
  rfl

theorem splitLines_subset : ∀ (l seg : List Char), seg ∈ splitLines l →
    ∀ c ∈ seg, c ∈ l := by
  intro l
  induction l with
  | nil =>
    intro seg hseg c hc
    simp [splitLines] at hseg
    subst hseg
    simp at hc
  | cons a as ih =>
    intro seg hseg c hc
    unfold splitLines at hseg
    by_cases ha : a = '\n'
    · rw [if_pos ha] at hseg
      rcases List.mem_cons.mp hseg with rfl | h1
      · simp at hc
      · exact List.mem_cons_of_mem a (ih seg h1 c hc)
    · rw [if_neg ha] at hseg
      rcases hs : splitLines as with _ | ⟨l0, ls⟩ <;> rw [hs] at hseg
      · simp only [List.mem_singleton] at hseg
        subst hseg
        simp only [List.mem_singleton] at hc
        simp [hc]
      · rcases List.mem_cons.mp hseg with rfl | h1
        · rcases List.mem_cons.mp hc with rfl | h2
          · simp
          · have hmem : c ∈ as :=
              ih l0 (by rw [hs]; exact List.mem_cons_self l0 ls) c h2
            simp [hmem]
        · have hmem : c ∈ as :=
            ih seg (by rw [hs]; exact List.mem_cons_of_mem l0 h1) c hc
          simp [hmem]

theorem linesOf_ws {l : List Char} (h : ∀ c ∈ l, isWs c = true) :
    linesOf l = [] := by
  unfold linesOf
  rw [List.filter_eq_nil_iff]
  intro seg hseg
  rcases List.mem_map.mp hseg with ⟨s0, hs0, rfl⟩
  rw [rstrip_of_ws (fun c hc => h c (splitLines_subset l s0 hs0 c hc))]
  simp

theorem passText_blank {l : List Char} (h : ∀ c ∈ l, isWs c = true) :
    passText l = ⟨[], [], []⟩ := by
  unfold passText
  rw [linesOf_ws h]
  rfl

/-! ### Lemmas about the field map -/

theorem lookupField_updateField (fm : List (List Char × List Char))
    (k k' v : List Char) :
    lookupField k (updateField fm k' v) =
      if k' = k then some v else lookupField k fm := by
  induction fm with
  | nil => simp [updateField, lookupField]
  | cons hd tl ih =>
    obtain ⟨a, b⟩ := hd
    show lookupField k (if a = k' then (k', v) :: tl else (a, b) :: updateField tl k' v) = _
    by_cases hak : a = k'
    · rw [if_pos hak]
      show (if k' = k then some v else lookupField k tl) = _
      by_cases hk : k' = k
      · rw [if_pos hk, if_pos hk]
      · rw [if_neg hk, if_neg hk]
        show _ = if a = k then some b else lookupField k tl
        rw [if_neg (fun e => hk (hak.symm.trans e))]
    · rw [if_neg hak]
      show (if a = k then some b else lookupField k (updateField tl k' v)) = _
      rw [ih]
      by_cases ha : a = k
      · rw [if_pos ha, if_neg (fun e => hak (ha.trans e.symm))]
        show some b = if a = k then some b else lookupField k tl
        rw [if_pos ha]
      · rw [if_neg ha]
        by_cases hk : k' = k
        · rw [if_pos hk, if_pos hk]
        · rw [if_neg hk, if_neg hk]
          show lookupField k tl = if a = k then some b else lookupField k tl
          rw [if_neg ha]

theorem foldl_fm (ls : List (List Char)) : ∀ (st : PassState),
    (ls.foldl stepLine st).fm =
      List.foldl (fun m p => updateField m p.1 p.2) st.fm (ls.filterMap kvOf) := by
  induction ls with
  | nil => intro st; rfl
  | cons line tl ih =>
    intro st
    rw [List.foldl_cons]
    rcases hkv : kvOf line with _ | ⟨k, v⟩
    · have hstep : (stepLine st line).fm = st.fm := by
        unfold stepLine classifyLine
        rw [hkv]
        rcases listItemOf line with _ | s <;> rfl
      rw [ih (stepLine st line), hstep]
      rw [show (line :: tl).filterMap kvOf = tl.filterMap kvOf by
        simp [List.filterMap_cons, hkv]]
    · have hstep : stepLine st line = { st with fm := updateField st.fm k v } := by
        unfold stepLine classifyLine
        rw [hkv]
      rw [ih (stepLine st line), hstep]
      rw [show (line :: tl).filterMap kvOf = (k, v) :: tl.filterMap kvOf by
        simp [List.filterMap_cons, hkv]]
      rfl

theorem lookupField_foldl (k : List Char) :
    ∀ (kvs : List (List Char × List Char)) (fm : List (List Char × List Char)),
    lookupField k (List.foldl (fun m p => updateField m p.1 p.2) fm kvs) =
      match lastValue k kvs with
      | some w => some w
      | none => lookupField k fm := by
  intro kvs
  induction kvs with
  | nil => intro fm; rfl
  | cons hd tl ih =>
    intro fm
    obtain ⟨k', v⟩ := hd
    rw [List.foldl_cons, ih (updateField fm k' v)]
    have hcons : lastValue k ((k', v) :: tl) =
        match lastValue k tl with
        | some w => some w
        | none => if k' = k then some v else none := rfl
    rw [hcons]
    rcases hlast : lastValue k tl with _ | w
    · show lookupField k (updateField fm k' v) =
        (match (if k' = k then some v else none) with
          | some w => some w
          | none => lookupField k fm)
      rw [lookupField_updateField]
      by_cases hk : k' = k
      · rw [if_pos hk, if_pos hk]
      · rw [if_neg hk, if_neg hk]
    · rfl

/-! ### Lemmas about delimiter splitting -/

theorem splitFirst_append (d : Char) : ∀ (a b : List Char), d ∉ a →
    splitFirst d (a ++ d :: b) = some (a, b) := by
  intro a
  induction a with
  | nil => intro b _; simp [splitFirst]
  | cons c a' ih =>
    intro b h
    have hc : c ≠ d := fun e => h (by simp [e])
    show splitFirst d (c :: (a' ++ d :: b)) = _
    unfold splitFirst
    rw [if_neg hc, ih b (fun hx => h (by simp [hx]))]
    rfl

theorem tryDelim_ident {d : Char} {line k v : List Char}
    (h : tryDelim d line = some (k, v)) : isIdent k = true := by
  unfold tryDelim at h
  rcases hs : splitFirst d line with _ | ⟨a, b⟩ <;> rw [hs] at h
  · simp at h
  · show isIdent k = true
    have h2 : (if isIdent (clean a) then some (clean a, clean b) else none) =
        some (k, v) := h
    by_cases hi : isIdent (clean a)
    · rw [if_pos hi] at h2
      have hk : clean a = k := congrArg Prod.fst (Option.some.inj h2)
      rw [← hk]
      exact hi
    · rw [if_neg hi] at h2
      simp at h2

/-! ### Lemma for the batch loop -/

theorem foldl_append_map (f : String → JValue) :
    ∀ (rows : List String) (acc : List JValue),
    rows.foldl (fun a r => a ++ [f r]) acc = acc ++ rows.map f := by
  intro rows
  induction rows with
  | nil => intro acc; simp
  | cons r tl ih =>
    intro acc
    rw [List.foldl_cons, ih (acc ++ [f r])]
    simp

/-! ### Claim theorems -/

/-- Claim C1: for every string input (including empty, whitespace-only,
binary-looking, or malformed text), `classify` terminates and returns a
well-formed `Result` record without raising — in the embedding, `classify`
is a total function, and its result always populates exactly one of the
five legal shapes. -/
theorem classify_never_fails (text : String) :
    ∃ r : Result, classify text = r ∧ r.wellFormed = true := by
  refine ⟨classify text, rfl, ?_⟩
  unfold classify
  split
  · rfl
  · unfold assemble
    split
    · rfl
    · split
      · rfl
      · split
        · rfl
        · split <;> rfl

/-- Claim C2: for every string input, the top-level key set of the Result
returned by `classify` is exactly one element of
fields, list, fields+list, text, lines, and never any other mix. -/
theorem classify_keyset_shape (text : String) :
    (classify text).keyset ∈
      [["fields"], ["list"], ["fields", "list"], ["text"], ["lines"]] := by
  unfold classify
  split
  · simp [Result.keyset]
  · unfold assemble
    split
    · simp [Result.keyset]
    · split
      · simp [Result.keyset]
      · split
        · simp [Result.keyset]
        · split <;> simp [Result.keyset]

/-- Claim C3: whenever the line pass yields a non-empty FieldMap and a
non-empty ListItems, `classify` returns exactly the fields+list record,
with no `text` or `lines` key — every freeform (OtherLines) line is
absent from the result. -/
theorem classify_mixed_drops_freeform (text : String)
    (h1 : (passText text.data).fm ≠ []) (h2 : (passText text.data).li ≠ []) :
    classify text =
      ⟨some (passText text.data).fm, some (passText text.data).li, none, none⟩ := by
  unfold classify
  split
  · rename_i hblank
    exact absurd
      (congrArg PassState.fm (passText_blank (List.all_eq_true.mp hblank))) h1
  · unfold assemble
    rw [if_pos ⟨h1, h2⟩]

/-- Witness for C3 at the spec's own example: the stray freeform note is
recorded in OtherLines by the pass but absent from the returned record. -/
theorem classify_mixed_drops_freeform_witness :
    classify "name: Bob\n- item\nsome stray note" =
      ⟨some (passText "name: Bob\n- item\nsome stray note".data).fm,
        some (passText "name: Bob\n- item\nsome stray note".data).li, none, none⟩ ∧
    (passText "name: Bob\n- item\nsome stray note".data).fm
      = [("name".data, "Bob".data)] ∧
    (passText "name: Bob\n- item\nsome stray note".data).li = ["item".data] ∧
    (passText "name: Bob\n- item\nsome stray note".data).ol
      = ["some stray note".data] :=
  ⟨classify_mixed_drops_freeform _ (by decide) (by decide),
    by decide, by decide, by decide⟩

/-- Claim C4: when several key-value lines share the same cleaned key, the
returned FieldMap maps that key to the value of the last such line in
input order. -/
theorem classify_last_duplicate_wins (text : String) (k v : List Char)
    (h : lastValue k ((linesOf text.data).filterMap kvOf) = some v) :
    lookupField k (passText text.data).fm = some v := by
  have hfm := foldl_fm (linesOf text.data) ⟨[], [], []⟩
  unfold passText
  rw [hfm, lookupField_foldl, h]

/-- Witness for C4 at the spec's own example `x: 1` then `x: 2`. -/
theorem classify_last_duplicate_wins_witness :
    lookupField "x".data (passText "x: 1\nx: 2".data).fm = some "2".data ∧
    classify "x: 1\nx: 2" = ⟨some [("x".data, "2".data)], none, none, none⟩ :=
  ⟨classify_last_duplicate_wins "x: 1\nx: 2" "x".data "2".data (by decide),
    by decide⟩

/-- Claim C5: the colon split is tried before the equals split (a line
whose first colon yields a valid identifier key is split there no matter
what else the line holds); every accepted key passes the identifier test;
and a line on which both delimiter forms fail and which is not a list
item is classified as freeform — in particular
`classify "123abc: value"` is the freeform record. -/
theorem classify_kv_delimiter_policy :
    (∀ a b : List Char, ':' ∉ a → isIdent (clean a) = true →
        kvOf (a ++ ':' :: b) = some (clean a, clean b)) ∧
    (∀ line k v : List Char, kvOf line = some (k, v) → isIdent k = true) ∧
    (∀ line : List Char, kvOf line = none → listItemOf line = none →
        classifyLine line = LineClass.other (clean line)) ∧
    classify "123abc: value" = ⟨none, none, some "123abc: value".data, none⟩ := by
  refine ⟨?_, ?_, ?_, by decide⟩
  · intro a b hmem hident
    have ht : tryDelim ':' (a ++ ':' :: b) = some (clean a, clean b) := by
      unfold tryDelim
      rw [splitFirst_append ':' a b hmem]
      show (if isIdent (clean a) then some (clean a, clean b) else none) = _
      rw [if_pos hident]
    unfold kvOf
    rw [ht]
  · intro line k v h
    unfold kvOf at h
    rcases hc : tryDelim ':' line with _ | p
    · rw [hc] at h
      exact tryDelim_ident (show tryDelim '=' line = some (k, v) from h)
    · rw [hc] at h
      have hp : p = (k, v) := Option.some.inj (show some p = some (k, v) from h)
      subst hp
      exact tryDelim_ident hc
  · intro line h1 h2
    unfold classifyLine
    rw [h1, h2]

/-- Witness for C5: a colon line whose value holds an equals sign is split
at the colon; an accepted key passes the identifier test; and the spec's
rejected-key example is checked inside the theorem itself. -/
theorem classify_kv_delimiter_policy_witness :
    kvOf ("key".data ++ ':' :: " a=b".data)
      = some (clean "key".data, clean " a=b".data) ∧
    isIdent "key".data = true :=
  ⟨classify_kv_delimiter_policy.1 "key".data " a=b".data (by decide) (by decide),
    classify_kv_delimiter_policy.2.1 "key: x".data "key".data "x".data (by decide)⟩

/-- Claim C6: every input that is empty or consists only of whitespace is
classified as the empty text record. -/
theorem classify_blank_input (text : String)
    (h : ∀ c ∈ text.data, isWs c = true) :
    classify text = ⟨none, none, some [], none⟩ := by
  unfold classify
  rw [if_pos (List.all_eq_true.mpr h)]

/-- Witness for C6 at the spec's two examples. -/
theorem classify_blank_input_witness :
    classify "" = ⟨none, none, some [], none⟩ ∧
    classify "   \n  " = ⟨none, none, some [], none⟩ :=
  ⟨classify_blank_input "" (by decide), classify_blank_input "   \n  " (by decide)⟩

/-- Claim C7: the string-cleaning function is idempotent — cleaning an
already-cleaned string returns it unchanged, for every string. -/
theorem clean_idempotent (s : String) : clean (clean s.data) = clean s.data :=
  clean_clean s.data

/-- Claim C8: `extract_lead_data` never propagates an exception — if the
chat-completion call or the JSON parsing of its response raises, the
function returns a dict with the exception text under the "error" key;
otherwise it returns the JSON-decoded response content. -/
theorem extract_lead_data_error_contract
    (call : Except String String) (jloads : String → Except String JValue) :
    (∀ e, call = Except.error e →
        extract_lead_data call jloads = JValue.obj [("error", JValue.str e)]) ∧
    (∀ c e, call = Except.ok c → jloads c = Except.error e →
        extract_lead_data call jloads = JValue.obj [("error", JValue.str e)]) ∧
    (∀ c v, call = Except.ok c → jloads c = Except.ok v →
        extract_lead_data call jloads = v) := by
  refine ⟨?_, ?_, ?_⟩
  · intro e he
    subst he
    rfl
  · intro c e hc hj
    subst hc
    show (match jloads c with
      | .error e => JValue.obj [("error", JValue.str e)]
      | .ok v => v) = JValue.obj [("error", JValue.str e)]
    rw [hj]
  · intro c v hc hj
    subst hc
    show (match jloads c with
      | .error e => JValue.obj [("error", JValue.str e)]
      | .ok v => v) = v
    rw [hj]

/-- Witness for C8: a failing HTTP call, a failing JSON parse, and a
successful parse, each at a concrete input. -/
theorem extract_lead_data_error_contract_witness :
    extract_lead_data (Except.error "boom") (fun _ => Except.ok JValue.null)
      = JValue.obj [("error", JValue.str "boom")] ∧
    extract_lead_data (Except.ok "nonsense") (fun _ => Except.error "bad json")
      = JValue.obj [("error", JValue.str "bad json")] ∧
    extract_lead_data (Except.ok "{}") (fun _ => Except.ok (JValue.obj []))
      = JValue.obj [] :=
  ⟨(extract_lead_data_error_contract _ _).1 "boom" rfl,
    (extract_lead_data_error_contract _ _).2.1 "nonsense" "bad json" rfl rfl,
    (extract_lead_data_error_contract _ _).2.2 "{}" (JValue.obj []) rfl rfl⟩

/-- Claim C9: `load_all_chats` returns the empty dict when the chat-history
file does not exist, rather than raising, and returns the JSON-decoded
contents of the file when it does exist. -/
theorem load_all_chats_contract (jload : String → Except String JValue) :
    load_all_chats none jload = Except.ok (JValue.obj []) ∧
    (∀ contents v, jload contents = Except.ok v →
        load_all_chats (some contents) jload = Except.ok v) := by
  refine ⟨rfl, ?_⟩
  intro contents v h
  show jload contents = Except.ok v
  exact h

/-- Witness for C9: a missing file and an existing file with decodable
contents. -/
theorem load_all_chats_contract_witness :
    load_all_chats none (fun _ => Except.ok JValue.null)
      = Except.ok (JValue.obj []) ∧
    load_all_chats (some "[]") (fun _ => Except.ok (JValue.arr []))
      = Except.ok (JValue.arr []) :=
  ⟨(load_all_chats_contract _).1,
    (load_all_chats_contract _).2 "[]" (JValue.arr []) rfl⟩

/-- Claim C10: the batch extractor appends exactly one `extract_lead_data`
result per input row, in row-iteration order — the extracted list equals
the row-wise map and its length equals the number of input rows. -/
theorem extractedLeads_one_per_row (llm : String → Except String String)
    (jloads : String → Except String JValue) (rows : List String) :
    extractedLeads llm jloads rows =
      rows.map (fun raw => extract_lead_data (llm raw) jloads) ∧
    (extractedLeads llm jloads rows).length = rows.length := by
  have h1 : extractedLeads llm jloads rows =
      rows.map (fun raw => extract_lead_data (llm raw) jloads) :=
    (foldl_append_map (fun raw => extract_lead_data (llm raw) jloads)
      rows []).trans (List.nil_append _)
  exact ⟨h1, by rw [h1]; simp⟩

end JLF
